import Mathlib

/-!
Shallow embedding of src/jquery.dragExitVelocity.js (the velocity-estimation
core: `computeVelocity`, `interpolateTrailingEdge`, and the session-start
buffer allocation in `$.fn.dragExitVelocity`).

Modelling conventions:

* JS numbers (pixel coordinates, millisecond timestamps) are modelled as `ℚ`.
  `Date` objects enter arithmetic only through their millisecond value, so a
  timestamp is a `ℚ` as well.
* The mouse-position buffer `new Array(len)` is a `List (Option Sample)`:
  `none` is a never-written slot (`undefined` in JS).  A JS array write
  `buffer[i] = v` grows the array when `i ≥ length` (line 124 does this when
  the cursor is 0); `writeAt` reproduces that, padding with `none` holes.
* Line 124, `$.extend({}, buffer[i - 1])`, shallow-copies the previous datum.
  When `buffer[i - 1]` is `undefined` (nothing ever recorded) the copy is the
  empty object and only `time` is set; its `x`/`y` stay `undefined` in JS.
  `mkAnchor` pins those missing coordinates to `0`.  The pinned values are
  reachable only when the slot before the cursor is a hole; with the
  recorder's reachable states that means a fully empty buffer, in which case
  the function returns `{Vx := 0, Vy := 0}` before the coordinates are used.
* The sort comparator (lines 138-142) compares `a.time === b.time` on `Date`
  objects, which is reference equality and therefore false for the distinct
  `Date`s the recorder creates; the effective comparator returns
  `-1` when `a.time > b.time` and `1` otherwise, never `0`.  For samples with
  equal timestamps the mainstream engines' stable sort then keeps the
  original (buffer-index) order, because the merge/insertion steps only move
  an element when the comparator is negative.  The model therefore sorts with
  a stable insertion sort on `time` descending, ties keeping compaction
  order.
* `computeVelocity` reads the wall clock (`new Date()`, line 125); the model
  takes that reading as an explicit argument `now`.
* The JS code mutates shared objects: line 124 stores the synthetic anchor
  into the caller's array, and lines 198-200 overwrite the fields of the
  boundary sample object in place (the filtered/sorted list aliases the
  array's elements).  To model object identity, compaction tags every sample
  with its buffer index, and `computeVelocityFull` returns both the velocity
  and the final buffer contents.  When the interpolated boundary is the head
  of the sorted list (`j - 1 = 0`), the JS variables `mostrecent` and
  `mintime` alias the same object, so `elapsed` is `0`; the model reproduces
  the alias explicitly.
-/

attribute [local semireducible] Rat.add Rat.sub Rat.mul Rat.inv Rat.ofScientific

/-- Mouse-position sample: element-local coordinates plus a millisecond
timestamp (the JS object `{x, y, time}`). -/
structure Sample where
  x : ℚ
  y : ℚ
  time : ℚ
deriving DecidableEq

instance : Inhabited Sample := ⟨⟨0, 0, 0⟩⟩

/-- Result record of the estimator: `{Vx, Vy}` in pixels/second. -/
structure Velocity where
  Vx : ℚ
  Vy : ℚ
deriving DecidableEq

/-- Fixed-capacity sample buffer with `undefined` holes (JS `new Array(len)`
populated at some indices). -/
abbrev Buffer := List (Option Sample)

/-- JS array write `buffer[i] = some v`: in-range writes update the slot,
out-of-range writes grow the array, filling the gap with holes. -/
def writeAt (b : Buffer) (i : ℕ) (v : Sample) : Buffer :=
  if i < b.length then b.set i (some v)
  else b ++ List.replicate (i - b.length) none ++ [some v]

/-- Index the synthetic anchor is written to (line 123):
`i = (i === 0) ? buffer.length : i`. -/
def anchorIndex (b : Buffer) (i : ℕ) : ℕ :=
  if i = 0 then b.length else i

/-- Synthetic anchor (lines 124-125): a copy of the previously written datum
restamped with the current time.  With no previous datum the JS object has
only `time`; the missing coordinates are pinned to `0` here (see the header
comment). -/
def mkAnchor (prev : Option Sample) (now : ℚ) : Sample :=
  match prev with
  | some s => ⟨s.x, s.y, now⟩
  | none => ⟨0, 0, now⟩

/-- Compaction (line 128: `buffer.filter(x => x !== undefined)`) keeping each
sample's buffer index as its identity. -/
def compactedAux : ℕ → Buffer → List (ℕ × Sample)
  | _, [] => []
  | k, none :: rest => compactedAux (k + 1) rest
  | k, some s :: rest => (k, s) :: compactedAux (k + 1) rest

/-- Dense list of written samples, tagged with their buffer indices. -/
def compacted (b : Buffer) : List (ℕ × Sample) :=
  compactedAux 0 b

/-- Effective order of the sort at lines 138-142: time descending, ties
keeping the original order (see the header comment on the comparator). -/
def timeDescRel (p q : ℕ × Sample) : Prop :=
  q.2.time ≤ p.2.time

instance : DecidableRel timeDescRel := fun p q =>
  inferInstanceAs (Decidable (q.2.time ≤ p.2.time))

instance : IsTotal (ℕ × Sample) timeDescRel :=
  ⟨fun p q => le_total q.2.time p.2.time⟩

instance : IsTrans (ℕ × Sample) timeDescRel :=
  ⟨fun _ _ _ h1 h2 => le_trans h2 h1⟩

/-- Strict version of the sort order, used to reason about sort results when
all timestamps are distinct. -/
def timeStrictRel (p q : ℕ × Sample) : Prop :=
  q.2.time < p.2.time

instance : IsAntisymm (ℕ × Sample) timeStrictRel :=
  ⟨fun _ _ h1 h2 => absurd h1 (lt_asymm h2)⟩

/-- Stable sort by timestamp descending (lines 138-142). -/
def sortDesc (l : List (ℕ × Sample)) : List (ℕ × Sample) :=
  List.insertionSort timeDescRel l

/-- Number of leading samples of `l` whose timestamp is at or after `cutoff`
(the loop at lines 150-159 runs over these without breaking). -/
def windowRun (l : List (ℕ × Sample)) (cutoff : ℚ) : ℕ :=
  (l.takeWhile (fun p => decide (cutoff ≤ p.2.time))).length

/-- Value of `j` after the scan loop (lines 149-159): starting at 1, the
first index whose sample is strictly older than
`mostrecent.time - msec`, or the list length if none is. -/
def breakIndex (l : List (ℕ × Sample)) (msec : ℚ) : ℕ :=
  1 + windowRun l.tail ((l.headD (0, default)).2.time - msec)

/-- Trailing-edge interpolation (lines 185-204).  Returns the buffer index of
the boundary sample (the object the JS code mutates in place) together with
its new value.  When no trailing sample exists or the gap is at least the
threshold, the boundary sample is returned unchanged. -/
def interpolateTrailingEdge (l : List (ℕ × Sample)) (j : ℕ) (msec thr : ℚ) :
    ℕ × Sample :=
  let mostrecent := (l.headD (0, default)).2
  let mt := l.getD j (0, default)
  match l[j + 1]? with
  | some trailing =>
    if mt.2.time - trailing.2.time < thr then
      let tmsec := mostrecent.time - msec
      let miniwindow := mt.2.time - trailing.2.time
      let w1 := 1 - |mt.2.time - tmsec| / miniwindow
      let w2 := 1 - |tmsec - trailing.2.time| / miniwindow
      (mt.1, ⟨w1 * mt.2.x + w2 * trailing.2.x,
              w1 * mt.2.y + w2 * trailing.2.y,
              w1 * mt.2.time + w2 * trailing.2.time⟩)
    else (mt.1, mt.2)
  | none => (mt.1, mt.2)

/-- Whether the interpolation at lines 190-201 actually writes the boundary
sample (a trailing sample exists and the gap is under the threshold). -/
def interpFires (l : List (ℕ × Sample)) (j : ℕ) (thr : ℚ) : Bool :=
  match l[j + 1]? with
  | some trailing => decide ((l.getD j (0, default)).2.time - trailing.2.time < thr)
  | none => false

/-- Buffer contents after the anchor write of lines 123-125. -/
def anchoredBuffer (b : Buffer) (i : ℕ) (now : ℚ) : Buffer :=
  writeAt b (anchorIndex b i) (mkAnchor (b.getD (anchorIndex b i - 1) none) now)

/-- Compacted samples sorted by time descending, as the estimator sees them
after lines 123-142. -/
def sortedSamples (b : Buffer) (i : ℕ) (now : ℚ) : List (ℕ × Sample) :=
  sortDesc (compacted (anchoredBuffer b i now))

/-- Boundary sample after interpolation (`mintime` at line 163), computed
from the sorted sample list. -/
def minSampleOf (S : List (ℕ × Sample)) (msec : ℚ) : Sample :=
  (interpolateTrailingEdge S (breakIndex S msec - 1) msec 50).2

/-- Value read through the JS variable `mostrecent` at lines 166 and 177-178:
the sorted head, except that when the interpolation target is the head itself
(`j - 1 = 0`) the in-place mutation makes `mostrecent` read the interpolated
values. -/
def mostRecentOf (S : List (ℕ × Sample)) (msec : ℚ) : Sample :=
  if breakIndex S msec - 1 = 0 then minSampleOf S msec
  else (S.headD (0, default)).2

/-- Elapsed window time (line 166). -/
def elapsedOf (S : List (ℕ × Sample)) (msec : ℚ) : ℚ :=
  (mostRecentOf S msec).time - (minSampleOf S msec).time

/-- Velocity computed from the sorted sample list (lines 149-179). -/
def velocityFromSorted (S : List (ℕ × Sample)) (msec : ℚ) : Velocity :=
  let mostrecent := mostRecentOf S msec
  let mintime := minSampleOf S msec
  let elapsed := mostrecent.time - mintime.time
  if elapsed = 0 then ⟨0, 0⟩
  else ⟨(mostrecent.x - mintime.x) / elapsed * 1000,
        -(mostrecent.y - mintime.y) / elapsed * 1000⟩

/-- Full model of `computeVelocity(buffer, i, msec)` (lines 119-180), with
the wall-clock reading at line 125 passed as `now`.  Returns the velocity
together with the final buffer contents (the anchor write plus, when the
interpolation fires, the in-place overwrite of the boundary sample's
fields). -/
def computeVelocityFull (b : Buffer) (i : ℕ) (msec now : ℚ) :
    Velocity × Buffer :=
  let buf2 := anchoredBuffer b i now
  if compacted buf2 = [] then (⟨0, 0⟩, buf2)
  else
    let S := sortDesc (compacted buf2)
    let p := interpolateTrailingEdge S (breakIndex S msec - 1) msec 50
    let buf3 := if interpFires S (breakIndex S msec - 1) 50
                then buf2.set p.1 (some p.2) else buf2
    (velocityFromSorted S msec, buf3)

/-- Velocity result of `computeVelocity(buffer, i, msec)` with the release
clock reading `now`. -/
def computeVelocity (b : Buffer) (i : ℕ) (msec now : ℚ) : Velocity :=
  (computeVelocityFull b i msec now).1

/-- Buffer index whose sample object the interpolation step would overwrite
in place (the sorted position `j - 1`). -/
def boundarySlot (b : Buffer) (i : ℕ) (msec now : ℚ) : ℕ :=
  (interpolateTrailingEdge (sortedSamples b i now)
    (breakIndex (sortedSamples b i now) msec - 1) msec 50).1

/-- JS `Math.round`: round half away from zero toward positive infinity. -/
def jsRound (q : ℚ) : ℤ :=
  ⌊q + 1 / 2⌋

/-- Session start (lines 63-73): capacity `Math.round(msec / 10) * 3` and
`new Array(len)`.  A negative computed length makes `new Array` throw a
RangeError, modelled as `none`; otherwise the session gets a buffer of
`len` empty slots.  No other validation of `msec` exists in the source. -/
def sessionStart (msec : ℚ) : Option Buffer :=
  let len := jsRound (msec / 10) * 3
  if len < 0 then none
  else some (List.replicate len.toNat none)

/-! ## Basic buffer and compaction lemmas -/

theorem getElem?_writeAt_self (b : Buffer) (i : ℕ) (v : Sample) :
    (writeAt b i v)[i]? = some (some v) := by
  unfold writeAt
  split
  · exact List.getElem?_set_self (by assumption)
  · rename_i h
    have hl : (b ++ List.replicate (i - b.length) (none : Option Sample)).length = i := by
      simp only [List.length_append, List.length_replicate]
      omega
    calc (b ++ List.replicate (i - b.length) none ++ [some v])[i]?
        = ((b ++ List.replicate (i - b.length) none) ++ [some v])[(b ++ List.replicate (i - b.length) (none : Option Sample)).length]? := by rw [hl]
      _ = some (some v) := List.getElem?_concat_length _ _

theorem getElem?_writeAt_ne (b : Buffer) (i k : ℕ) (v : Sample) (hk : k ≠ i)
    (t : Sample) (h : (writeAt b i v)[k]? = some (some t)) :
    b[k]? = some (some t) := by
  unfold writeAt at h
  split at h
  · rwa [List.getElem?_set_ne (Ne.symm hk)] at h
  · rename_i hlen
    have hmid : (b ++ List.replicate (i - b.length) (none : Option Sample)).length = i := by
      simp only [List.length_append, List.length_replicate]
      omega
    rcases lt_or_ge k b.length with hlt | hge
    · rw [List.getElem?_append_left (by rw [hmid]; omega),
        List.getElem?_append_left hlt] at h
      exact h
    · exfalso
      rcases lt_or_ge k i with hki | hki
      · rw [List.getElem?_append_left (by rw [hmid]; omega),
          List.getElem?_append_right hge, List.getElem?_replicate,
          if_pos (by omega)] at h
        simp at h
      · have hki' : i < k := lt_of_le_of_ne hki (Ne.symm hk)
        rw [List.getElem?_append_right (by rw [hmid]; omega)] at h
        rw [List.getElem?_eq_none (by simp only [List.length_cons, List.length_nil]; omega)] at h
        exact Option.noConfusion h

theorem mem_compactedAux (b : Buffer) : ∀ (n k : ℕ) (s : Sample),
    (k, s) ∈ compactedAux n b ↔ ∃ m, k = n + m ∧ b[m]? = some (some s) := by
  induction b with
  | nil =>
    intro n k s
    simp [compactedAux]
  | cons o rest ih =>
    intro n k s
    cases o with
    | none =>
      rw [show compactedAux n (none :: rest) = compactedAux (n + 1) rest from rfl,
        ih (n + 1) k s]
      constructor
      · rintro ⟨m, rfl, hm⟩
        exact ⟨m + 1, by omega, by simpa using hm⟩
      · rintro ⟨m, hk2, hm⟩
        cases m with
        | zero => simp at hm
        | succ m => exact ⟨m, by omega, by simpa using hm⟩
    | some t =>
      rw [show compactedAux n (some t :: rest) = (n, t) :: compactedAux (n + 1) rest from rfl]
      rw [List.mem_cons, ih (n + 1) k s]
      constructor
      · rintro (hp | ⟨m, rfl, hm⟩)
        · rw [Prod.mk.injEq] at hp
          exact ⟨0, by omega, by simp [hp.2]⟩
        · exact ⟨m + 1, by omega, by simpa using hm⟩
      · rintro ⟨m, hk2, hm⟩
        cases m with
        | zero =>
          left
          simp only [List.getElem?_cons_zero, Option.some.injEq] at hm
          rw [Prod.mk.injEq]
          exact ⟨by omega, hm.symm⟩
        | succ m =>
          right
          exact ⟨m, by omega, by simpa using hm⟩

theorem mem_compacted (b : Buffer) (k : ℕ) (s : Sample) :
    (k, s) ∈ compacted b ↔ b[k]? = some (some s) := by
  rw [compacted, mem_compactedAux b 0 k s]
  constructor
  · rintro ⟨m, rfl, hm⟩
    simpa using hm
  · intro h
    exact ⟨k, by omega, h⟩

theorem anchor_mem_compacted (b : Buffer) (i : ℕ) (now : ℚ) :
    (anchorIndex b i, mkAnchor (b.getD (anchorIndex b i - 1) none) now)
      ∈ compacted (anchoredBuffer b i now) := by
  rw [mem_compacted]
  exact getElem?_writeAt_self _ _ _

theorem compacted_anchored_ne_nil (b : Buffer) (i : ℕ) (now : ℚ) :
    compacted (anchoredBuffer b i now) ≠ [] := by
  intro h
  simpa [h] using anchor_mem_compacted b i now

theorem sortedSamples_perm (b : Buffer) (i : ℕ) (now : ℚ) :
    (sortedSamples b i now).Perm (compacted (anchoredBuffer b i now)) :=
  List.perm_insertionSort timeDescRel _

theorem sortedSamples_sorted (b : Buffer) (i : ℕ) (now : ℚ) :
    List.Sorted timeDescRel (sortedSamples b i now) :=
  List.sorted_insertionSort timeDescRel _

theorem sortedSamples_ne_nil (b : Buffer) (i : ℕ) (now : ℚ) :
    sortedSamples b i now ≠ [] := by
  intro h
  exact compacted_anchored_ne_nil b i now
    (List.Perm.nil_eq (h ▸ sortedSamples_perm b i now)).symm

theorem computeVelocity_eq_fromSorted (b : Buffer) (i : ℕ) (msec now : ℚ) :
    computeVelocity b i msec now = velocityFromSorted (sortedSamples b i now) msec := by
  unfold computeVelocity computeVelocityFull
  rw [if_neg (compacted_anchored_ne_nil b i now)]
  rfl

/-! ## Scan-loop lemmas -/

theorem mem_of_getElem_opt {α : Type _} {l : List α} {n : ℕ} {a : α}
    (h : l[n]? = some a) : a ∈ l := by
  rw [List.getElem?_eq_some] at h
  obtain ⟨hn, rfl⟩ := h
  exact List.getElem_mem hn

theorem takeWhile_pred_of_getElem {α : Type _} (p : α → Bool) :
    ∀ (l : List α) (k : ℕ) (a : α), k < (l.takeWhile p).length →
      l[k]? = some a → p a = true := by
  intro l
  induction l with
  | nil => intro k a hk _; simp [List.takeWhile] at hk
  | cons x xs ih =>
    intro k a hk h
    by_cases hp : p x
    · rw [List.takeWhile_cons_of_pos hp] at hk
      cases k with
      | zero =>
        simp only [List.getElem?_cons_zero, Option.some.injEq] at h
        exact h ▸ hp
      | succ k =>
        simp only [List.length_cons, Nat.add_lt_add_iff_right] at hk
        exact ih k a hk (by simpa using h)
    · rw [List.takeWhile_cons_of_neg hp] at hk
      simp at hk

theorem pred_fails_after_takeWhile {α : Type _} (p : α → Bool) :
    ∀ (l : List α) (a : α), l[(l.takeWhile p).length]? = some a →
      p a = false := by
  intro l
  induction l with
  | nil => intro a h; simp at h
  | cons x xs ih =>
    intro a h
    by_cases hp : p x
    · rw [List.takeWhile_cons_of_pos hp] at h
      simp only [List.length_cons] at h
      exact ih a (by simpa using h)
    · rw [List.takeWhile_cons_of_neg hp] at h
      simp only [List.length_nil, List.getElem?_cons_zero, Option.some.injEq] at h
      exact h ▸ (by simpa using hp)

theorem windowRun_le_length (l : List (ℕ × Sample)) (cutoff : ℚ) :
    windowRun l cutoff ≤ l.length :=
  (List.takeWhile_sublist _).length_le


/-- Convex combinations with nonnegative weights below a common bound. -/
theorem blend_le {w1 w2 a b c : ℚ} (h1 : 0 ≤ w1) (h2 : 0 ≤ w2)
    (hs : w1 + w2 = 1) (ha : a ≤ c) (hb : b ≤ c) : w1 * a + w2 * b ≤ c := by
  have t1 : w1 * a ≤ w1 * c := mul_le_mul_of_nonneg_left ha h1
  have t2 : w2 * b ≤ w2 * c := mul_le_mul_of_nonneg_left hb h2
  have t3 : w1 * c + w2 * c = c := by rw [← add_mul, hs, one_mul]
  linarith

theorem breakIndex_cons (p : ℕ × Sample) (tl : List (ℕ × Sample)) (msec : ℚ) :
    breakIndex (p :: tl) msec = 1 + windowRun tl (p.2.time - msec) := rfl

/-- Decomposition of the post-interpolation boundary sample: when the elapsed
time is nonzero, `mostrecent` is the sorted head, and `mintime` is either an
element of the sorted list or a convex combination (nonnegative weights
summing to one) of two of its elements: the scan's boundary sample and the
first out-of-window sample. -/
theorem minSample_structure (S : List (ℕ × Sample)) (msec : ℚ)
    (hne : S ≠ []) (he : elapsedOf S msec ≠ 0) :
    mostRecentOf S msec = (S.headD (0, default)).2 ∧
    ((∃ q ∈ S, minSampleOf S msec = q.2) ∨
     (∃ q ∈ S, ∃ tr ∈ S, ∃ w1 w2 : ℚ, 0 ≤ w1 ∧ 0 ≤ w2 ∧ w1 + w2 = 1 ∧
       minSampleOf S msec =
         ⟨w1 * q.2.x + w2 * tr.2.x, w1 * q.2.y + w2 * tr.2.y,
          w1 * q.2.time + w2 * tr.2.time⟩)) := by
  by_cases hj0 : breakIndex S msec - 1 = 0
  · exfalso
    apply he
    unfold elapsedOf mostRecentOf
    rw [if_pos hj0]
    ring
  · refine ⟨by unfold mostRecentOf; rw [if_neg hj0], ?_⟩
    obtain ⟨h0, tl, rfl⟩ : ∃ h0 tl, S = h0 :: tl := by
      cases S with
      | nil => exact absurd rfl hne
      | cons a l => exact ⟨a, l, rfl⟩
    have hjm : breakIndex (h0 :: tl) msec - 1 = windowRun tl (h0.2.time - msec) := by
      rw [breakIndex_cons]
      omega
    have hW1 : 1 ≤ windowRun tl (h0.2.time - msec) := by omega
    have hW_le : windowRun tl (h0.2.time - msec) ≤ tl.length :=
      windowRun_le_length tl _
    have hW_lt : windowRun tl (h0.2.time - msec) < (h0 :: tl).length := by
      rw [List.length_cons]
      omega
    have hmt : (h0 :: tl)[windowRun tl (h0.2.time - msec)]? =
        some ((h0 :: tl).getD (windowRun tl (h0.2.time - msec)) (0, default)) := by
      rw [List.getD_eq_getElem?_getD, List.getElem?_eq_some.mpr ⟨hW_lt, rfl⟩]
      rfl
    have hmt_mem : (h0 :: tl).getD (windowRun tl (h0.2.time - msec)) (0, default)
        ∈ h0 :: tl := mem_of_getElem_opt hmt
    unfold minSampleOf
    rw [hjm]
    cases htr : (h0 :: tl)[windowRun tl (h0.2.time - msec) + 1]? with
    | none =>
      unfold interpolateTrailingEdge
      rw [htr]
      exact Or.inl ⟨_, hmt_mem, rfl⟩
    | some tr =>
      by_cases hgap : ((h0 :: tl).getD (windowRun tl (h0.2.time - msec)) (0, default)).2.time
          - tr.2.time < 50
      · have htr_mem : tr ∈ h0 :: tl := mem_of_getElem_opt htr
        have hmt_in : h0.2.time - msec ≤
            ((h0 :: tl).getD (windowRun tl (h0.2.time - msec)) (0, default)).2.time := by
          have h1 : windowRun tl (h0.2.time - msec) - 1 <
              (tl.takeWhile (fun p => decide (h0.2.time - msec ≤ p.2.time))).length := by
            have hwr : windowRun tl (h0.2.time - msec) =
                (tl.takeWhile (fun p => decide (h0.2.time - msec ≤ p.2.time))).length := rfl
            omega
          have h2 : tl[windowRun tl (h0.2.time - msec) - 1]? =
              some ((h0 :: tl).getD (windowRun tl (h0.2.time - msec)) (0, default)) := by
            rw [← hmt]
            have heq : windowRun tl (h0.2.time - msec) - 1 + 1 =
                windowRun tl (h0.2.time - msec) := by omega
            rw [← List.getElem?_cons_succ (a := h0), heq]
          have hx := takeWhile_pred_of_getElem _ tl _ _ h1 h2
          simp only [decide_eq_true_eq] at hx
          exact hx
        have htr_out : tr.2.time < h0.2.time - msec := by
          have h2 : tl[(tl.takeWhile (fun p => decide (h0.2.time - msec ≤ p.2.time))).length]?
              = some tr := by
            rw [← htr]
            exact (List.getElem?_cons_succ (a := h0)).symm
          have hx := pred_fails_after_takeWhile _ tl tr h2
          simp only [decide_eq_false_iff_not, not_le] at hx
          linarith
        have hgap_pos : (0 : ℚ) <
            ((h0 :: tl).getD (windowRun tl (h0.2.time - msec)) (0, default)).2.time
              - tr.2.time := by linarith
        have hgne : ((h0 :: tl).getD (windowRun tl (h0.2.time - msec)) (0, default)).2.time
            - tr.2.time ≠ 0 := ne_of_gt hgap_pos
        refine Or.inr ⟨_, hmt_mem, tr, htr_mem, ?_⟩
        unfold interpolateTrailingEdge
        rw [htr]
        simp only [if_pos hgap, List.headD_cons]
        refine ⟨_, _, ?_, ?_, ?_, rfl⟩
        · rw [abs_of_nonneg (by linarith), sub_nonneg, div_le_one hgap_pos]
          linarith
        · rw [abs_of_nonneg (by linarith), sub_nonneg, div_le_one hgap_pos]
          linarith
        · rw [abs_of_nonneg (by linarith), abs_of_nonneg (by linarith)]
          have hsum : (((h0 :: tl).getD (windowRun tl (h0.2.time - msec)) (0, default)).2.time
                - (h0.2.time - msec)) /
                (((h0 :: tl).getD (windowRun tl (h0.2.time - msec)) (0, default)).2.time
                  - tr.2.time) +
              ((h0.2.time - msec) - tr.2.time) /
                (((h0 :: tl).getD (windowRun tl (h0.2.time - msec)) (0, default)).2.time
                  - tr.2.time) = 1 := by
            rw [div_add_div_same]
            have hnum : ((h0 :: tl).getD (windowRun tl (h0.2.time - msec)) (0, default)).2.time
                - (h0.2.time - msec) + ((h0.2.time - msec) - tr.2.time) =
                ((h0 :: tl).getD (windowRun tl (h0.2.time - msec)) (0, default)).2.time
                  - tr.2.time := by
              ring
            rw [hnum]
            exact div_self hgne
          linarith
      · unfold interpolateTrailingEdge
        rw [htr]
        simp only [if_neg hgap]
        exact Or.inl ⟨_, hmt_mem, rfl⟩

/-- Every element of a time-descending sorted list has timestamp at most the
head's. -/
theorem head_time_max (S : List (ℕ × Sample)) (hS : List.Sorted timeDescRel S)
    (q : ℕ × Sample) (hq : q ∈ S) : q.2.time ≤ (S.headD (0, default)).2.time := by
  cases S with
  | nil => cases hq
  | cons h0 tl =>
    rw [List.headD_cons]
    rcases List.mem_cons.mp hq with rfl | hq2
    · exact le_refl _
    · exact List.rel_of_sorted_cons hS q hq2

theorem compactedAux_eq_nil (c : Buffer) (hc : ∀ o ∈ c, o = none) :
    ∀ n, compactedAux n c = [] := by
  induction c with
  | nil => intro n; rfl
  | cons o rest ih =>
    intro n
    have ho : o = none := hc o (List.mem_cons_self _ _)
    subst ho
    exact ih (fun o hm => hc o (List.mem_cons_of_mem _ hm)) (n + 1)

theorem compactedAux_append (l1 l2 : Buffer) :
    ∀ n, compactedAux n (l1 ++ l2) =
      compactedAux n l1 ++ compactedAux (n + l1.length) l2 := by
  induction l1 with
  | nil => intro n; simp [compactedAux]
  | cons o rest ih =>
    intro n
    cases o with
    | none =>
      show compactedAux (n + 1) (rest ++ l2) = _
      rw [ih (n + 1)]
      show _ = compactedAux (n + 1) rest ++ compactedAux (n + (rest.length + 1)) l2
      have : n + 1 + rest.length = n + (rest.length + 1) := by omega
      rw [this]
    | some s =>
      show (n, s) :: compactedAux (n + 1) (rest ++ l2) = _
      rw [ih (n + 1)]
      show _ = ((n, s) :: compactedAux (n + 1) rest)
        ++ compactedAux (n + (rest.length + 1)) l2
      have : n + 1 + rest.length = n + (rest.length + 1) := by omega
      rw [this, List.cons_append]

theorem compactedAux_set_allnone (c : Buffer) (hc : ∀ o ∈ c, o = none) :
    ∀ n k (v : Sample), k < c.length →
      compactedAux n (c.set k (some v)) = [(n + k, v)] := by
  induction c with
  | nil => intro n k v hk; simp at hk
  | cons o rest ih =>
    intro n k v hk
    have ho : o = none := hc o (List.mem_cons_self _ _)
    subst ho
    cases k with
    | zero =>
      show (n, v) :: compactedAux (n + 1) rest = [(n + 0, v)]
      rw [compactedAux_eq_nil rest (fun o hm => hc o (List.mem_cons_of_mem _ hm))]
      norm_num
    | succ k =>
      show compactedAux (n + 1) (rest.set k (some v)) = [(n + (k + 1), v)]
      rw [ih (fun o hm => hc o (List.mem_cons_of_mem _ hm)) (n + 1) k v
        (by simpa using Nat.lt_of_succ_lt_succ hk)]
      have : n + 1 + k = n + (k + 1) := by omega
      rw [this]

/-- With a fully empty buffer, compaction after the anchor write yields
exactly the synthetic anchor. -/
theorem compacted_anchored_allnone (b : Buffer) (i : ℕ) (now : ℚ)
    (hb : ∀ o ∈ b, o = none) :
    compacted (anchoredBuffer b i now) =
      [(anchorIndex b i, mkAnchor (b.getD (anchorIndex b i - 1) none) now)] := by
  unfold anchoredBuffer writeAt compacted
  split
  · rw [compactedAux_set_allnone b hb 0 _ _ (by assumption)]
    norm_num
  · rename_i hlen
    rw [compactedAux_append, compactedAux_append,
      compactedAux_eq_nil b hb, compactedAux_eq_nil _ (by
        intro o hm
        exact List.eq_of_mem_replicate hm)]
    have hsingle : ∀ n, compactedAux n
        [some (mkAnchor (b.getD (anchorIndex b i - 1) none) now)] =
        [(n, mkAnchor (b.getD (anchorIndex b i - 1) none) now)] := fun n => rfl
    rw [hsingle]
    simp only [List.nil_append, List.length_append, List.length_replicate]
    have hN : 0 + (b.length + (anchorIndex b i - b.length)) = anchorIndex b i := by
      omega
    rw [hN]

/-- Unfolding of the final velocity computation (lines 166-179) through the
named stage functions. -/
theorem velocityFromSorted_eq (S : List (ℕ × Sample)) (msec : ℚ) :
    velocityFromSorted S msec =
      if elapsedOf S msec = 0 then ⟨0, 0⟩
      else ⟨((mostRecentOf S msec).x - (minSampleOf S msec).x) / elapsedOf S msec * 1000,
            -((mostRecentOf S msec).y - (minSampleOf S msec).y) / elapsedOf S msec * 1000⟩ :=
  rfl

theorem elapsed_singleton (p : ℕ × Sample) (msec : ℚ) :
    elapsedOf [p] msec = 0 := by
  unfold elapsedOf mostRecentOf
  rw [if_pos (show breakIndex [p] msec - 1 = 0 from rfl)]
  exact sub_self _

theorem mkAnchor_time (prev : Option Sample) (now : ℚ) :
    (mkAnchor prev now).time = now := by
  cases prev <;> rfl

theorem headD_mem (S : List (ℕ × Sample)) (hne : S ≠ []) :
    S.headD (0, default) ∈ S := by
  cases S with
  | nil => exact absurd rfl hne
  | cons a l =>
    rw [List.headD_cons]
    exact List.mem_cons_self _ _

/-- Any coordinate reading that is linear under the interpolation blend and
maximal at the sorted head bounds the post-interpolation boundary sample. -/
theorem minSample_le_head (S : List (ℕ × Sample)) (msec : ℚ)
    (hne : S ≠ []) (he : elapsedOf S msec ≠ 0) (f : Sample → ℚ)
    (hlin : ∀ (w1 w2 : ℚ) (a b : Sample),
      f ⟨w1 * a.x + w2 * b.x, w1 * a.y + w2 * b.y, w1 * a.time + w2 * b.time⟩ =
        w1 * f a + w2 * f b)
    (hmono : ∀ p ∈ S, f p.2 ≤ f (S.headD (0, default)).2) :
    f (minSampleOf S msec) ≤ f (S.headD (0, default)).2 := by
  obtain ⟨-, hdec⟩ := minSample_structure S msec hne he
  rcases hdec with ⟨q, hq, heq⟩ | ⟨q, hq, tr, htr, w1, w2, hw1, hw2, hws, heq⟩
  · rw [heq]
    exact hmono q hq
  · rw [heq, hlin]
    exact blend_le hw1 hw2 hws (hmono q hq) (hmono tr htr)

/-- Final buffer contents returned by the estimator: the anchored buffer,
with the boundary slot overwritten when the interpolation fires. -/
theorem computeVelocityFull_snd (b : Buffer) (i : ℕ) (msec now : ℚ) :
    (computeVelocityFull b i msec now).2 =
      if interpFires (sortedSamples b i now)
          (breakIndex (sortedSamples b i now) msec - 1) 50
      then (anchoredBuffer b i now).set (boundarySlot b i msec now)
        (some (minSampleOf (sortedSamples b i now) msec))
      else anchoredBuffer b i now := by
  unfold computeVelocityFull
  rw [if_neg (compacted_anchored_ne_nil b i now)]
  rfl

theorem getElem?_writeAt_lt (b : Buffer) (i k : ℕ) (v : Sample)
    (hk : k ≠ i) (hlt : k < b.length) :
    (writeAt b i v)[k]? = b[k]? := by
  unfold writeAt
  split
  · exact List.getElem?_set_ne (Ne.symm hk)
  · rw [List.getElem?_append_left
      (by simp only [List.length_append, List.length_replicate]; omega),
      List.getElem?_append_left hlt]

theorem getD_writeAt_ne (b : Buffer) (i k : ℕ) (v : Sample) (hk : k ≠ i) :
    (writeAt b i v).getD k none = b.getD k none := by
  unfold writeAt
  split
  · rw [List.getD_eq_getElem?_getD, List.getD_eq_getElem?_getD,
      List.getElem?_set_ne (Ne.symm hk)]
  · rename_i hlen
    rcases lt_or_ge k b.length with hlt | hge
    · rw [List.getD_eq_getElem?_getD, List.getD_eq_getElem?_getD,
        List.getElem?_append_left
          (by simp only [List.length_append, List.length_replicate]; omega),
        List.getElem?_append_left hlt]
    · rw [List.getD_eq_getElem?_getD, List.getD_eq_getElem?_getD,
        List.getElem?_eq_none hge]
      rcases lt_or_ge k i with hki | hki
      · rw [List.getElem?_append_left
          (by simp only [List.length_append, List.length_replicate]; omega),
          List.getElem?_append_right hge, List.getElem?_replicate,
          if_pos (by omega)]
        rfl
      · have hik : i < k := lt_of_le_of_ne hki (Ne.symm hk)
        have hlen2 : (b ++ List.replicate (i - b.length) (none : Option Sample)
            ++ [some v]).length ≤ k := by
          simp only [List.length_append, List.length_replicate, List.length_cons,
            List.length_nil]
          omega
        rw [List.getElem?_eq_none hlen2]

theorem writeAt_set_comm (b : Buffer) (i k : ℕ) (v : Sample) (w : Option Sample)
    (hk : k ≠ i) (hlt : k < b.length) :
    writeAt (b.set k w) i v = (writeAt b i v).set k w := by
  unfold writeAt
  rw [List.length_set]
  split
  · exact List.set_comm _ _ _ hk
  · have hb1 : k < (b ++ List.replicate (i - b.length)
        (none : Option Sample)).length := by
      simp only [List.length_append, List.length_replicate]
      omega
    rw [List.set_append_left _ _ hb1, List.set_append_left _ _ hlt]

/-! ## Inserting a sample into an empty slot -/

theorem compactedAux_set_mid (u : Buffer) : ∀ (n k : ℕ) (s : Sample),
    u[k]? = some none →
    ∃ L1 L2, compactedAux n u = L1 ++ L2 ∧
      compactedAux n (u.set k (some s)) = L1 ++ (n + k, s) :: L2 := by
  induction u with
  | nil =>
    intro n k s hc
    simp at hc
  | cons o rest ih =>
    intro n k s hc
    cases k with
    | zero =>
      simp only [List.getElem?_cons_zero, Option.some.injEq] at hc
      subst hc
      refine ⟨[], compactedAux (n + 1) rest, rfl, ?_⟩
      show (n, s) :: compactedAux (n + 1) rest =
        [] ++ (n + 0, s) :: compactedAux (n + 1) rest
      norm_num
    | succ k =>
      obtain ⟨L1, L2, h1, h2⟩ := ih (n + 1) k s (by simpa using hc)
      cases o with
      | none =>
        refine ⟨L1, L2, h1, ?_⟩
        show compactedAux (n + 1) (rest.set k (some s)) = _
        rw [h2]
        have harith : n + 1 + k = n + (k + 1) := by omega
        rw [harith]
      | some t =>
        refine ⟨(n, t) :: L1, L2, ?_, ?_⟩
        · show (n, t) :: compactedAux (n + 1) rest = _
          rw [h1]
          rfl
        · show (n, t) :: compactedAux (n + 1) (rest.set k (some s)) = _
          rw [h2]
          have harith : n + 1 + k = n + (k + 1) := by omega
          rw [harith]
          rfl

theorem compacted_set_mid (u : Buffer) (k : ℕ) (s : Sample)
    (hc : u[k]? = some none) :
    ∃ L1 L2, compacted u = L1 ++ L2 ∧
      compacted (u.set k (some s)) = L1 ++ (k, s) :: L2 := by
  obtain ⟨L1, L2, h1, h2⟩ := compactedAux_set_mid u 0 k s hc
  exact ⟨L1, L2, h1, by simpa using h2⟩

theorem sorted_strict_of_distinct (l : List (ℕ × Sample))
    (h1 : List.Sorted timeDescRel l)
    (h2 : l.Pairwise (fun p q => p.2.time ≠ q.2.time)) :
    List.Sorted timeStrictRel l :=
  (List.Pairwise.and h1 h2).imp fun hpq => lt_of_le_of_ne hpq.1 (Ne.symm hpq.2)

/-- Inserting a sample strictly older than everything else sorts to the very
end; with pairwise-distinct timestamps the sorted list is determined
uniquely. -/
theorem sortDesc_insert_oldest (L1 L2 : List (ℕ × Sample)) (x : ℕ × Sample)
    (hdist : (sortDesc (L1 ++ L2)).Pairwise (fun p q => p.2.time ≠ q.2.time))
    (hold : ∀ p ∈ L1 ++ L2, x.2.time < p.2.time) :
    sortDesc (L1 ++ x :: L2) = sortDesc (L1 ++ L2) ++ [x] := by
  have hperm0 : (sortDesc (L1 ++ x :: L2)).Perm (x :: (L1 ++ L2)) :=
    (List.perm_insertionSort timeDescRel _).trans List.perm_middle
  have hperm : (sortDesc (L1 ++ x :: L2)).Perm (sortDesc (L1 ++ L2) ++ [x]) :=
    hperm0.trans (((List.perm_insertionSort timeDescRel (L1 ++ L2)).symm.cons x).trans
      (List.perm_append_singleton x (sortDesc (L1 ++ L2))).symm)
  have hsymm : ∀ {p q : ℕ × Sample},
      p.2.time ≠ q.2.time → q.2.time ≠ p.2.time := fun h => Ne.symm h
  have hdist2 : (L1 ++ L2).Pairwise (fun p q => p.2.time ≠ q.2.time) :=
    (List.Perm.pairwise_iff hsymm
      (List.perm_insertionSort timeDescRel (L1 ++ L2))).mp hdist
  have hs1 : List.Sorted timeStrictRel (sortDesc (L1 ++ x :: L2)) := by
    apply sorted_strict_of_distinct _ (List.sorted_insertionSort timeDescRel _)
    refine (List.Perm.pairwise_iff hsymm hperm0).mpr ?_
    refine List.pairwise_cons.mpr ⟨fun p hp => ne_of_lt (hold p hp), hdist2⟩
  have hs2 : List.Sorted timeStrictRel (sortDesc (L1 ++ L2) ++ [x]) := by
    refine List.pairwise_append.mpr
      ⟨sorted_strict_of_distinct _ (List.sorted_insertionSort timeDescRel _) hdist,
       List.pairwise_singleton _ _, ?_⟩
    intro a ha c hc
    have hc2 : c = x := by simpa using hc
    have ha2 : a ∈ L1 ++ L2 :=
      (List.perm_insertionSort timeDescRel (L1 ++ L2)).subset ha
    rw [hc2]
    exact hold a ha2
  exact List.eq_of_perm_of_sorted hperm hs1 hs2

/-! ## Appending an out-of-window, out-of-reach sample to the sorted list -/

theorem windowRun_append_single (tl : List (ℕ × Sample)) (x : ℕ × Sample)
    (c : ℚ) (hx : ¬ c ≤ x.2.time) :
    windowRun (tl ++ [x]) c = windowRun tl c := by
  unfold windowRun
  rw [List.takeWhile_append]
  split
  · rename_i hfull
    rw [List.takeWhile_cons_of_neg (by simpa using hx)]
    simp only [List.append_nil]
    exact hfull.symm
  · rfl

theorem breakIndex_append_single (S : List (ℕ × Sample)) (x : ℕ × Sample)
    (msec : ℚ) (hne : S ≠ [])
    (hout : x.2.time < (S.headD (0, default)).2.time - msec) :
    breakIndex (S ++ [x]) msec = breakIndex S msec := by
  obtain ⟨h0, tl, rfl⟩ : ∃ h0 tl, S = h0 :: tl := by
    cases S with
    | nil => exact absurd rfl hne
    | cons a l => exact ⟨a, l, rfl⟩
  rw [List.headD_cons] at hout
  show breakIndex (h0 :: (tl ++ [x])) msec = _
  rw [breakIndex_cons, breakIndex_cons,
    windowRun_append_single tl x _ (not_le.mpr hout)]

theorem headD_append_single (S : List (ℕ × Sample)) (x : ℕ × Sample)
    (hne : S ≠ []) :
    (S ++ [x]).headD (0, default) = S.headD (0, default) := by
  cases S with
  | nil => exact absurd rfl hne
  | cons a l => rfl

theorem breakIndex_sub_one_lt (S : List (ℕ × Sample)) (msec : ℚ)
    (hne : S ≠ []) : breakIndex S msec - 1 < S.length := by
  obtain ⟨h0, tl, rfl⟩ : ∃ h0 tl, S = h0 :: tl := by
    cases S with
    | nil => exact absurd rfl hne
    | cons a l => exact ⟨a, l, rfl⟩
  rw [breakIndex_cons, List.length_cons]
  have := windowRun_le_length tl (h0.2.time - msec)
  omega

/-- Appending a sample that is both outside the window and more than the
interpolation threshold older than every existing sample changes neither the
boundary sample nor the `mostrecent` reading. -/
theorem minSampleOf_append_single (S : List (ℕ × Sample)) (x : ℕ × Sample)
    (msec : ℚ) (hne : S ≠ [])
    (hout : x.2.time < (S.headD (0, default)).2.time - msec)
    (hold : ∀ p ∈ S, x.2.time + 50 < p.2.time) :
    minSampleOf (S ++ [x]) msec = minSampleOf S msec ∧
    mostRecentOf (S ++ [x]) msec = mostRecentOf S msec := by
  have hbi : breakIndex (S ++ [x]) msec = breakIndex S msec :=
    breakIndex_append_single S x msec hne hout
  have hjm_lt : breakIndex S msec - 1 < S.length :=
    breakIndex_sub_one_lt S msec hne
  have hhead : (S ++ [x]).headD (0, default) = S.headD (0, default) :=
    headD_append_single S x hne
  have hgetD : (S ++ [x]).getD (breakIndex S msec - 1) (0, default) =
      S.getD (breakIndex S msec - 1) (0, default) := by
    rw [List.getD_eq_getElem?_getD, List.getD_eq_getElem?_getD,
      List.getElem?_append_left hjm_lt]
  have hinterp : interpolateTrailingEdge (S ++ [x]) (breakIndex S msec - 1)
      msec 50 = interpolateTrailingEdge S (breakIndex S msec - 1) msec 50 := by
    rcases lt_or_ge (breakIndex S msec - 1 + 1) S.length with hlt | hge
    · have htr2 : (S ++ [x])[breakIndex S msec - 1 + 1]? =
          S[breakIndex S msec - 1 + 1]? := List.getElem?_append_left hlt
      unfold interpolateTrailingEdge
      rw [htr2, hgetD, hhead]
    · have heq : breakIndex S msec - 1 + 1 = S.length := by omega
      have htrx : (S ++ [x])[breakIndex S msec - 1 + 1]? = some x := by
        rw [heq]
        exact List.getElem?_concat_length S x
      have htrn : S[breakIndex S msec - 1 + 1]? = none :=
        List.getElem?_eq_none (by omega)
      have hmt : S[breakIndex S msec - 1]? =
          some (S.getD (breakIndex S msec - 1) (0, default)) := by
        rw [List.getD_eq_getElem?_getD, List.getElem?_eq_some.mpr ⟨hjm_lt, rfl⟩]
        rfl
      have hmtmem : S.getD (breakIndex S msec - 1) (0, default) ∈ S :=
        mem_of_getElem_opt hmt
      have hnofire : ¬ ((S.getD (breakIndex S msec - 1) (0, default)).2.time
          - x.2.time < 50) := by
        have := hold _ hmtmem
        linarith
      unfold interpolateTrailingEdge
      rw [htrx, htrn, hgetD]
      simp only [if_neg hnofire]
  constructor
  · unfold minSampleOf
    rw [hbi, hinterp]
  · unfold mostRecentOf
    rw [hbi]
    by_cases hj0 : breakIndex S msec - 1 = 0
    · rw [if_pos hj0, if_pos hj0]
      unfold minSampleOf
      rw [hbi, hinterp]
    · rw [if_neg hj0, if_neg hj0, hhead]

theorem velocityFromSorted_append_old (S : List (ℕ × Sample)) (x : ℕ × Sample)
    (msec : ℚ) (hne : S ≠ [])
    (hout : x.2.time < (S.headD (0, default)).2.time - msec)
    (hold : ∀ p ∈ S, x.2.time + 50 < p.2.time) :
    velocityFromSorted (S ++ [x]) msec = velocityFromSorted S msec := by
  obtain ⟨hmin, hmr⟩ := minSampleOf_append_single S x msec hne hout hold
  have helap : elapsedOf (S ++ [x]) msec = elapsedOf S msec := by
    unfold elapsedOf
    rw [hmin, hmr]
  rw [velocityFromSorted_eq, velocityFromSorted_eq, helap, hmin, hmr]

/-! ## Claims -/

/-- C2: for every input with every buffer slot empty, and for every input
whose post-interpolation elapsed time is zero, the estimator returns exactly
`{Vx := 0, Vy := 0}`.  The model is a total function, so no input can make it
throw. -/
theorem claim_C2 :
    (∀ (b : Buffer) (i : ℕ) (msec now : ℚ), (∀ o ∈ b, o = none) →
      computeVelocity b i msec now = ⟨0, 0⟩) ∧
    (∀ (b : Buffer) (i : ℕ) (msec now : ℚ),
      elapsedOf (sortedSamples b i now) msec = 0 →
      computeVelocity b i msec now = ⟨0, 0⟩) := by
  constructor
  · intro b i msec now hb
    have hS : sortedSamples b i now =
        [(anchorIndex b i, mkAnchor (b.getD (anchorIndex b i - 1) none) now)] := by
      unfold sortedSamples
      rw [compacted_anchored_allnone b i now hb]
      rfl
    rw [computeVelocity_eq_fromSorted, velocityFromSorted_eq, hS,
      if_pos (elapsed_singleton _ _)]
  · intro b i msec now he
    rw [computeVelocity_eq_fromSorted, velocityFromSorted_eq, if_pos he]

/-- Witness for C2: a two-slot empty buffer, and a one-sample buffer released
at the sample's own timestamp (elapsed zero). -/
theorem claim_C2_witness :
    computeVelocity [none, none] 2 50 100 = ⟨0, 0⟩ ∧
    computeVelocity [some ⟨1, 2, 3⟩] 0 10 3 = ⟨0, 0⟩ :=
  ⟨claim_C2.1 [none, none] 2 50 100 (by decide),
   claim_C2.2 [some ⟨1, 2, 3⟩] 0 10 3 (by decide)⟩

/-- C10: the compacted list is never empty (the synthetic-anchor write always
contributes a defined entry), so the empty-list branch at line 130 is
unreachable; for an all-empty buffer the `{0, 0}` fallback comes from the
`elapsed == 0` branch at line 168. -/
theorem claim_C10 :
    (∀ (b : Buffer) (i : ℕ) (now : ℚ),
      compacted (anchoredBuffer b i now) ≠ []) ∧
    (∀ (b : Buffer) (i : ℕ) (msec now : ℚ), (∀ o ∈ b, o = none) →
      elapsedOf (sortedSamples b i now) msec = 0 ∧
      computeVelocity b i msec now = ⟨0, 0⟩) := by
  refine ⟨compacted_anchored_ne_nil, ?_⟩
  intro b i msec now hb
  have hS : sortedSamples b i now =
      [(anchorIndex b i, mkAnchor (b.getD (anchorIndex b i - 1) none) now)] := by
    unfold sortedSamples
    rw [compacted_anchored_allnone b i now hb]
    rfl
  refine ⟨by rw [hS]; exact elapsed_singleton _ _, ?_⟩
  rw [computeVelocity_eq_fromSorted, velocityFromSorted_eq, hS,
    if_pos (elapsed_singleton _ _)]

/-- Witness for C10: a one-slot empty buffer. -/
theorem claim_C10_witness :
    compacted (anchoredBuffer [none] 0 2) ≠ [] ∧
    (elapsedOf (sortedSamples [none] 0 2) 7 = 0 ∧
      computeVelocity [none] 0 7 2 = ⟨0, 0⟩) :=
  ⟨claim_C10.1 [none] 0 2, claim_C10.2 [none] 0 7 2 (by decide)⟩

/-- C3 (amended): the estimator is a deterministic function of the buffer
contents, the cursor, the window length, and the release-time clock reading
`now` taken at line 125; two invocations with all four equal produce
identical results.  It is not independent of the clock: the synthetic anchor
is stamped with the current time, so the result changes with the moment of
release (see the counterexample). -/
theorem claim_C3_amended (b1 b2 : Buffer) (i1 i2 : ℕ) (m1 m2 n1 n2 : ℚ)
    (hb : b1 = b2) (hi : i1 = i2) (hm : m1 = m2) (hn : n1 = n2) :
    computeVelocity b1 i1 m1 n1 = computeVelocity b2 i2 m2 n2 := by
  rw [hb, hi, hm, hn]

/-- Witness for C3. -/
theorem claim_C3_witness :
    computeVelocity [some ⟨2, 3, 4⟩] 0 30 8 = computeVelocity [some ⟨2, 3, 4⟩] 0 30 8 :=
  claim_C3_amended _ _ _ _ _ _ _ _ rfl rfl rfl rfl

/-- Counterexample to C3 as stated: identical buffer, cursor and window, but
the hidden clock reading differs between the two invocations, and so do the
results (`Vx = 100` versus `Vx = 50`). -/
theorem claim_C3_counterexample :
    computeVelocity [some ⟨0, 0, 0⟩, some ⟨10, 0, 50⟩] 0 200 100 ≠
      computeVelocity [some ⟨0, 0, 0⟩, some ⟨10, 0, 50⟩] 0 200 200 := by
  decide

/-- C6 (amended): session start throws (RangeError from `new Array` on a
negative computed capacity) exactly for window lengths below `-5` ms; zero
and slightly negative window lengths are not rejected — the session starts
with a zero-capacity buffer and still delivers an estimate. -/
theorem claim_C6_amended (msec : ℚ) : sessionStart msec = none ↔ msec < -5 := by
  have h1 : (jsRound (msec / 10) * 3 < 0) ↔ msec < -5 := by
    unfold jsRound
    constructor
    · intro h
      have h2 : ⌊msec / 10 + 1 / 2⌋ < 0 := by omega
      have h3 : msec / 10 + 1 / 2 < ((0 : ℤ) : ℚ) := Int.floor_lt.mp h2
      push_cast at h3
      linarith
    · intro h
      have h3 : msec / 10 + 1 / 2 < ((0 : ℤ) : ℚ) := by push_cast; linarith
      have h2 : ⌊msec / 10 + 1 / 2⌋ < 0 := Int.floor_lt.mpr h3
      omega
  simp only [sessionStart]
  split
  · rename_i h
    exact iff_of_true rfl (h1.mp h)
  · rename_i h
    exact iff_of_false (by simp) fun hc => h (h1.mpr hc)

/-- Counterexample to C6 as stated: a zero window length is not rejected at
session start — it yields a zero-capacity buffer — and the session still
delivers the estimate `{0, 0}`. -/
theorem claim_C6_counterexample :
    sessionStart 0 = some [] ∧ computeVelocity [] 0 0 100 = ⟨0, 0⟩ := by
  decide

/-- C7 (amended): while the cursor is nonzero and within capacity, the
estimation-time anchor write stays strictly below the original capacity and
the buffer length is unchanged by estimation.  When the cursor is 0 the
anchor is written at index `buffer.length` itself, growing the buffer by one
slot (see the counterexample). -/
theorem claim_C7_amended (b : Buffer) (i : ℕ) (msec now : ℚ)
    (h1 : 0 < i) (h2 : i < b.length) :
    anchorIndex b i < b.length ∧
    ((computeVelocityFull b i msec now).2).length = b.length := by
  have ha : anchorIndex b i = i := if_neg (by omega)
  have hb2 : (anchoredBuffer b i now).length = b.length := by
    unfold anchoredBuffer writeAt
    rw [ha, if_pos h2, List.length_set]
  refine ⟨by rw [ha]; exact h2, ?_⟩
  rw [computeVelocityFull_snd]
  split
  · rw [List.length_set]
    exact hb2
  · exact hb2

/-- Witness for C7: a three-slot buffer with cursor 1. -/
theorem claim_C7_witness :
    anchorIndex [some ⟨0, 0, 0⟩, some ⟨1, 1, 10⟩, none] 1 <
      ([some ⟨0, 0, 0⟩, some ⟨1, 1, 10⟩, none] : Buffer).length ∧
    ((computeVelocityFull [some ⟨0, 0, 0⟩, some ⟨1, 1, 10⟩, none] 1 20 30).2).length =
      ([some ⟨0, 0, 0⟩, some ⟨1, 1, 10⟩, none] : Buffer).length :=
  claim_C7_amended _ 1 20 30 (by decide) (by decide)

/-- Counterexample to C7 as stated: with cursor 0 (a full, wrapped buffer of
capacity 2), the synthetic anchor is written at index 2 = capacity, which is
not strictly below capacity, and the buffer grows to length 3. -/
theorem claim_C7_counterexample :
    anchorIndex [some ⟨0, 0, 0⟩, some ⟨1, 1, 10⟩] 0 = 2 ∧
    ¬ anchorIndex [some ⟨0, 0, 0⟩, some ⟨1, 1, 10⟩] 0 <
        ([some ⟨0, 0, 0⟩, some ⟨1, 1, 10⟩] : Buffer).length ∧
    ((computeVelocityFull [some ⟨0, 0, 0⟩, some ⟨1, 1, 10⟩] 0 5 20).2).length = 3 := by
  decide

/-- C8 (amended): whenever the release timestamp is strictly later than every
recorded sample's timestamp, the first element of the sorted list is the
synthetic anchor.  When a recorded sample ties the anchor's timestamp this
can fail: the comparator never returns 0 for distinct `Date` objects and the
engines' stable sort keeps the earlier buffer slot first (see the
counterexample). -/
theorem claim_C8_amended (b : Buffer) (i : ℕ) (now : ℚ)
    (h : ∀ o ∈ b, ∀ s : Sample, o = some s → s.time < now) :
    (sortedSamples b i now).headD (0, default) =
      (anchorIndex b i, mkAnchor (b.getD (anchorIndex b i - 1) none) now) := by
  have hne := sortedSamples_ne_nil b i now
  obtain ⟨h0, tl, hS⟩ : ∃ h0 tl, sortedSamples b i now = h0 :: tl := by
    cases hSS : sortedSamples b i now with
    | nil => exact absurd hSS hne
    | cons a l => exact ⟨a, l, rfl⟩
  rw [hS, List.headD_cons]
  by_contra hne2
  have hmem : h0 ∈ compacted (anchoredBuffer b i now) :=
    (sortedSamples_perm b i now).subset (by rw [hS]; exact List.mem_cons_self _ _)
  have hget : (anchoredBuffer b i now)[h0.1]? = some (some h0.2) := by
    rw [← mem_compacted]
    simpa using hmem
  have hne3 : h0.1 ≠ anchorIndex b i := by
    intro heq
    apply hne2
    have hws : (anchoredBuffer b i now)[anchorIndex b i]? =
        some (some (mkAnchor (b.getD (anchorIndex b i - 1) none) now)) :=
      getElem?_writeAt_self b (anchorIndex b i) _
    rw [heq] at hget
    rw [hget] at hws
    have h22 : h0.2 = mkAnchor (b.getD (anchorIndex b i - 1) none) now := by
      simpa using hws
    exact Prod.ext heq h22
  have hb : b[h0.1]? = some (some h0.2) :=
    getElem?_writeAt_ne b _ h0.1 _ hne3 h0.2 hget
  have htlt : h0.2.time < now := h (some h0.2) (mem_of_getElem_opt hb) h0.2 rfl
  have hemem : (anchorIndex b i, mkAnchor (b.getD (anchorIndex b i - 1) none) now)
      ∈ sortedSamples b i now :=
    (sortedSamples_perm b i now).symm.subset (anchor_mem_compacted b i now)
  have hetl : (anchorIndex b i, mkAnchor (b.getD (anchorIndex b i - 1) none) now)
      ∈ tl := by
    rw [hS] at hemem
    rcases List.mem_cons.mp hemem with heq | h2
    · exact absurd heq.symm hne2
    · exact h2
  have hsorted := sortedSamples_sorted b i now
  rw [hS] at hsorted
  have hrel : timeDescRel h0
      (anchorIndex b i, mkAnchor (b.getD (anchorIndex b i - 1) none) now) :=
    List.rel_of_sorted_cons hsorted _ hetl
  have hlast : (mkAnchor (b.getD (anchorIndex b i - 1) none) now).time ≤ h0.2.time :=
    hrel
  rw [mkAnchor_time] at hlast
  linarith

/-- Witness for C8: two recorded samples, release strictly after both. -/
theorem claim_C8_witness :
    (sortedSamples [some ⟨1, 2, 3⟩, some ⟨4, 5, 6⟩] 0 10).headD (0, default) =
      (anchorIndex [some ⟨1, 2, 3⟩, some ⟨4, 5, 6⟩] 0,
        mkAnchor (([some ⟨1, 2, 3⟩, some ⟨4, 5, 6⟩] : Buffer).getD
          (anchorIndex [some ⟨1, 2, 3⟩, some ⟨4, 5, 6⟩] 0 - 1) none) 10) :=
  claim_C8_amended [some ⟨1, 2, 3⟩, some ⟨4, 5, 6⟩] 0 10 (by decide)

/-- Counterexample to C8 as stated: a recorded sample in an earlier buffer
slot shares the anchor's timestamp (`100`), and the sorted list starts with
that sample — slot 0, position `(9, 9)` — not with the anchor at slot 2. -/
theorem claim_C8_counterexample :
    (sortedSamples [some ⟨9, 9, 100⟩, some ⟨1, 1, 50⟩] 0 100).headD (0, default) =
      (0, ⟨9, 9, 100⟩) ∧
    anchorIndex [some ⟨9, 9, 100⟩, some ⟨1, 1, 50⟩] 0 = 2 ∧
    mkAnchor (([some ⟨9, 9, 100⟩, some ⟨1, 1, 50⟩] : Buffer).getD 1 none) 100 =
      ⟨1, 1, 100⟩ ∧
    ((0 : ℕ), (⟨9, 9, 100⟩ : Sample)) ≠ (2, ⟨1, 1, 100⟩) := by
  decide

/-- C4: for a boundary sample at or after `targetT = mostRecent.t - windowMs`
whose trailing neighbour is strictly before `targetT` with a gap under the
50 ms threshold, the interpolated boundary's timestamp is exactly `targetT`
(exact in `ℚ`) and its position is a convex combination of the two original
samples, i.e. it lies on the straight segment between them. -/
theorem claim_C4 (l : List (ℕ × Sample)) (j : ℕ) (msec : ℚ)
    (q tr : ℕ × Sample)
    (hq : l[j]? = some q) (htr : l[j + 1]? = some tr)
    (hin : (l.headD (0, default)).2.time - msec ≤ q.2.time)
    (hout : tr.2.time < (l.headD (0, default)).2.time - msec)
    (hgap : q.2.time - tr.2.time < 50) :
    (interpolateTrailingEdge l j msec 50).2.time =
      (l.headD (0, default)).2.time - msec ∧
    ∃ w : ℚ, 0 ≤ w ∧ w ≤ 1 ∧
      (interpolateTrailingEdge l j msec 50).2.x = w * q.2.x + (1 - w) * tr.2.x ∧
      (interpolateTrailingEdge l j msec 50).2.y = w * q.2.y + (1 - w) * tr.2.y := by
  have hgd : l.getD j (0, default) = q := by
    rw [List.getD_eq_getElem?_getD, hq]
    rfl
  have hgap_pos : 0 < q.2.time - tr.2.time := by linarith
  have hgne : q.2.time - tr.2.time ≠ 0 := ne_of_gt hgap_pos
  have hval : interpolateTrailingEdge l j msec 50 =
      (q.1, ⟨(1 - (q.2.time - ((l.headD (0, default)).2.time - msec)) / (q.2.time - tr.2.time)) * q.2.x
              + (1 - (((l.headD (0, default)).2.time - msec) - tr.2.time) / (q.2.time - tr.2.time)) * tr.2.x,
             (1 - (q.2.time - ((l.headD (0, default)).2.time - msec)) / (q.2.time - tr.2.time)) * q.2.y
              + (1 - (((l.headD (0, default)).2.time - msec) - tr.2.time) / (q.2.time - tr.2.time)) * tr.2.y,
             (1 - (q.2.time - ((l.headD (0, default)).2.time - msec)) / (q.2.time - tr.2.time)) * q.2.time
              + (1 - (((l.headD (0, default)).2.time - msec) - tr.2.time) / (q.2.time - tr.2.time)) * tr.2.time⟩) := by
    unfold interpolateTrailingEdge
    rw [hgd, htr]
    simp only [if_pos (by linarith : q.2.time - tr.2.time < (50 : ℚ))]
    rw [abs_of_nonneg (by linarith), abs_of_nonneg (by linarith)]
  constructor
  · rw [hval]
    show (1 - (q.2.time - ((l.headD (0, default)).2.time - msec)) / (q.2.time - tr.2.time)) * q.2.time
        + (1 - (((l.headD (0, default)).2.time - msec) - tr.2.time) / (q.2.time - tr.2.time)) * tr.2.time =
      (l.headD (0, default)).2.time - msec
    field_simp
    ring
  · refine ⟨1 - (q.2.time - ((l.headD (0, default)).2.time - msec)) / (q.2.time - tr.2.time),
      ?_, ?_, ?_, ?_⟩
    · rw [sub_nonneg, div_le_one hgap_pos]
      linarith
    · rw [sub_le_self_iff]
      exact div_nonneg (by linarith) (le_of_lt hgap_pos)
    · rw [hval]
      show (1 - (q.2.time - ((l.headD (0, default)).2.time - msec)) / (q.2.time - tr.2.time)) * q.2.x
          + (1 - (((l.headD (0, default)).2.time - msec) - tr.2.time) / (q.2.time - tr.2.time)) * tr.2.x = _
      field_simp
    · rw [hval]
      show (1 - (q.2.time - ((l.headD (0, default)).2.time - msec)) / (q.2.time - tr.2.time)) * q.2.y
          + (1 - (((l.headD (0, default)).2.time - msec) - tr.2.time) / (q.2.time - tr.2.time)) * tr.2.y = _
      field_simp

/-- Witness for C4: boundary at `t = 60`, trailing at `t = 20`, release at
`t = 100`, window 50 ms, so `targetT = 50`, gap `40 < 50`. -/
theorem claim_C4_witness :
    (interpolateTrailingEdge
        [((2 : ℕ), (⟨0, 0, 100⟩ : Sample)), (1, ⟨10, 10, 60⟩), (0, ⟨2, 4, 20⟩)]
        1 50 50).2.time =
      (([((2 : ℕ), (⟨0, 0, 100⟩ : Sample)), (1, ⟨10, 10, 60⟩), (0, ⟨2, 4, 20⟩)].headD
        (0, default)).2.time - 50) ∧
    ∃ w : ℚ, 0 ≤ w ∧ w ≤ 1 ∧
      (interpolateTrailingEdge
        [((2 : ℕ), (⟨0, 0, 100⟩ : Sample)), (1, ⟨10, 10, 60⟩), (0, ⟨2, 4, 20⟩)]
        1 50 50).2.x = w * 10 + (1 - w) * 2 ∧
      (interpolateTrailingEdge
        [((2 : ℕ), (⟨0, 0, 100⟩ : Sample)), (1, ⟨10, 10, 60⟩), (0, ⟨2, 4, 20⟩)]
        1 50 50).2.y = w * 10 + (1 - w) * 4 :=
  claim_C4 _ 1 50 (1, ⟨10, 10, 60⟩) (0, ⟨2, 4, 20⟩)
    (by decide) (by decide) (by decide) (by decide) (by decide)

/-- C1 (amended): whenever the post-interpolation elapsed time is nonzero the
result is exactly `Vx = (mostRecent.x - mintime.x) / elapsed * 1000` and
`Vy = -(mostRecent.y - mintime.y) / elapsed * 1000`; and for buffers whose
sorted samples are monotone nondecreasing in a coordinate over time, the sign
invariant holds weakly: `Vy ≤ 0` when y rises with time, `Vx ≥ 0` when x
rises with time.  The strict signs of the original claim fail because the
synthetic anchor repeats the last recorded position at release time (see the
counterexample, where the velocity is exactly 0). -/
theorem claim_C1_amended (b : Buffer) (i : ℕ) (msec now : ℚ) :
    (elapsedOf (sortedSamples b i now) msec ≠ 0 →
      computeVelocity b i msec now =
        ⟨((mostRecentOf (sortedSamples b i now) msec).x -
            (minSampleOf (sortedSamples b i now) msec).x) /
            elapsedOf (sortedSamples b i now) msec * 1000,
          -((mostRecentOf (sortedSamples b i now) msec).y -
            (minSampleOf (sortedSamples b i now) msec).y) /
            elapsedOf (sortedSamples b i now) msec * 1000⟩) ∧
    ((∀ p ∈ sortedSamples b i now, ∀ q ∈ sortedSamples b i now,
        p.2.time ≤ q.2.time → p.2.y ≤ q.2.y) →
      elapsedOf (sortedSamples b i now) msec ≠ 0 →
      (computeVelocity b i msec now).Vy ≤ 0) ∧
    ((∀ p ∈ sortedSamples b i now, ∀ q ∈ sortedSamples b i now,
        p.2.time ≤ q.2.time → p.2.x ≤ q.2.x) →
      elapsedOf (sortedSamples b i now) msec ≠ 0 →
      0 ≤ (computeVelocity b i msec now).Vx) := by
  have hne := sortedSamples_ne_nil b i now
  have hsorted := sortedSamples_sorted b i now
  have hheadmem := headD_mem (sortedSamples b i now) hne
  refine ⟨?_, ?_, ?_⟩
  · intro he
    rw [computeVelocity_eq_fromSorted, velocityFromSorted_eq, if_neg he]
  · intro Hy he
    have hmr := (minSample_structure (sortedSamples b i now) msec hne he).1
    have htime_le : (minSampleOf (sortedSamples b i now) msec).time ≤
        ((sortedSamples b i now).headD (0, default)).2.time :=
      minSample_le_head _ msec hne he (fun t => t.time) (fun w1 w2 a c => rfl)
        (fun p hp => head_time_max _ hsorted p hp)
    have hy_le : (minSampleOf (sortedSamples b i now) msec).y ≤
        ((sortedSamples b i now).headD (0, default)).2.y :=
      minSample_le_head _ msec hne he (fun t => t.y) (fun w1 w2 a c => rfl)
        (fun p hp => Hy p hp _ hheadmem (head_time_max _ hsorted p hp))
    have helapval : elapsedOf (sortedSamples b i now) msec =
        ((sortedSamples b i now).headD (0, default)).2.time -
          (minSampleOf (sortedSamples b i now) msec).time := by
      unfold elapsedOf
      rw [hmr]
    have helap_pos : 0 < elapsedOf (sortedSamples b i now) msec := by
      rw [helapval] at he ⊢
      exact lt_of_le_of_ne (by linarith) (Ne.symm he)
    rw [computeVelocity_eq_fromSorted, velocityFromSorted_eq, if_neg he]
    show -((mostRecentOf (sortedSamples b i now) msec).y -
        (minSampleOf (sortedSamples b i now) msec).y) /
        elapsedOf (sortedSamples b i now) msec * 1000 ≤ 0
    rw [hmr, neg_div]
    have hq : 0 ≤ (((sortedSamples b i now).headD (0, default)).2.y -
        (minSampleOf (sortedSamples b i now) msec).y) /
        elapsedOf (sortedSamples b i now) msec :=
      div_nonneg (by linarith) (le_of_lt helap_pos)
    linarith
  · intro Hx he
    have hmr := (minSample_structure (sortedSamples b i now) msec hne he).1
    have htime_le : (minSampleOf (sortedSamples b i now) msec).time ≤
        ((sortedSamples b i now).headD (0, default)).2.time :=
      minSample_le_head _ msec hne he (fun t => t.time) (fun w1 w2 a c => rfl)
        (fun p hp => head_time_max _ hsorted p hp)
    have hx_le : (minSampleOf (sortedSamples b i now) msec).x ≤
        ((sortedSamples b i now).headD (0, default)).2.x :=
      minSample_le_head _ msec hne he (fun t => t.x) (fun w1 w2 a c => rfl)
        (fun p hp => Hx p hp _ hheadmem (head_time_max _ hsorted p hp))
    have helapval : elapsedOf (sortedSamples b i now) msec =
        ((sortedSamples b i now).headD (0, default)).2.time -
          (minSampleOf (sortedSamples b i now) msec).time := by
      unfold elapsedOf
      rw [hmr]
    have helap_pos : 0 < elapsedOf (sortedSamples b i now) msec := by
      rw [helapval] at he ⊢
      exact lt_of_le_of_ne (by linarith) (Ne.symm he)
    rw [computeVelocity_eq_fromSorted, velocityFromSorted_eq, if_neg he]
    show 0 ≤ ((mostRecentOf (sortedSamples b i now) msec).x -
        (minSampleOf (sortedSamples b i now) msec).x) /
        elapsedOf (sortedSamples b i now) msec * 1000
    rw [hmr]
    have hq : 0 ≤ (((sortedSamples b i now).headD (0, default)).2.x -
        (minSampleOf (sortedSamples b i now) msec).x) /
        elapsedOf (sortedSamples b i now) msec :=
      div_nonneg (by linarith) (le_of_lt helap_pos)
    linarith

/-- Witness for C1: two recorded samples strictly rising in x and y, release
well after both, window covering everything; the formula gives
`(100, -50)`, with `Vy ≤ 0` and `Vx ≥ 0`. -/
theorem claim_C1_witness :
    computeVelocity [some ⟨0, 0, 0⟩, some ⟨10, 5, 50⟩] 0 200 100 = ⟨100, -50⟩ ∧
    (computeVelocity [some ⟨0, 0, 0⟩, some ⟨10, 5, 50⟩] 0 200 100).Vy ≤ 0 ∧
    0 ≤ (computeVelocity [some ⟨0, 0, 0⟩, some ⟨10, 5, 50⟩] 0 200 100).Vx :=
  ⟨((claim_C1_amended [some ⟨0, 0, 0⟩, some ⟨10, 5, 50⟩] 0 200 100).1
      (by decide)).trans (by decide),
   (claim_C1_amended [some ⟨0, 0, 0⟩, some ⟨10, 5, 50⟩] 0 200 100).2.1
      (by decide) (by decide),
   (claim_C1_amended [some ⟨0, 0, 0⟩, some ⟨10, 5, 50⟩] 0 200 100).2.2
      (by decide) (by decide)⟩

/-- Counterexample to C1 as stated: the recorded samples rise strictly in
time, x and y, the elapsed time is 50 ≠ 0, yet the result is exactly
`{Vx := 0, Vy := 0}`: the window boundary lands after the last recorded move,
and the synthetic anchor has frozen the position, so neither `Vy < 0` nor
`Vx > 0` holds. -/
theorem claim_C1_counterexample :
    (∀ p ∈ compacted [some ⟨0, 0, 0⟩, some ⟨5, 5, 50⟩],
      ∀ q ∈ compacted [some ⟨0, 0, 0⟩, some ⟨5, 5, 50⟩],
        p.2.time < q.2.time → p.2.x < q.2.x ∧ p.2.y < q.2.y) ∧
    elapsedOf (sortedSamples [some ⟨0, 0, 0⟩, some ⟨5, 5, 50⟩] 0 100) 60 = 50 ∧
    computeVelocity [some ⟨0, 0, 0⟩, some ⟨5, 5, 50⟩] 0 60 100 = ⟨0, 0⟩ ∧
    ¬ (computeVelocity [some ⟨0, 0, 0⟩, some ⟨5, 5, 50⟩] 0 60 100).Vy < 0 ∧
    ¬ 0 < (computeVelocity [some ⟨0, 0, 0⟩, some ⟨5, 5, 50⟩] 0 60 100).Vx := by
  decide

/-- C9 (amended): estimation leaves every buffer slot unchanged except the
anchor slot (overwritten with the synthetic anchor) and, when the
interpolation fires, the boundary sample's slot — whose recorded sample
object is mutated in place (not a derived copy; see the counterexample). -/
theorem claim_C9_amended (b : Buffer) (i : ℕ) (msec now : ℚ) (k : ℕ)
    (h1 : k ≠ anchorIndex b i) (h2 : k ≠ boundarySlot b i msec now) :
    ((computeVelocityFull b i msec now).2).getD k none = b.getD k none := by
  rw [computeVelocityFull_snd]
  split
  · rw [List.getD_eq_getElem?_getD, List.getElem?_set_ne (Ne.symm h2),
      ← List.getD_eq_getElem?_getD]
    exact getD_writeAt_ne b _ k _ h1
  · exact getD_writeAt_ne b _ k _ h1

/-- Witness for C9: slot 2 (neither the anchor slot 1 nor the boundary slot
0) is unchanged by estimation. -/
theorem claim_C9_witness :
    ((computeVelocityFull [some ⟨10, 0, 100⟩, none, some ⟨0, 0, 55⟩] 1 100 160).2).getD
        2 none =
      ([some ⟨10, 0, 100⟩, none, some ⟨0, 0, 55⟩] : Buffer).getD 2 none :=
  claim_C9_amended [some ⟨10, 0, 100⟩, none, some ⟨0, 0, 55⟩] 1 100 160 2
    (by decide) (by decide)

/-- Counterexample to C9 as stated: the recorded sample `(10, 0, 100)` stored
in slot 0 is the interpolation boundary; after estimation its fields read
`(10/9, 0, 60)` — the original recorded sample object was overwritten in
place, not a derived copy. -/
theorem claim_C9_counterexample :
    (computeVelocityFull [some ⟨10, 0, 100⟩, none, some ⟨0, 0, 55⟩] 1 100 160).2 =
      [some ⟨10 / 9, 0, 60⟩, some ⟨10, 0, 160⟩, some ⟨0, 0, 55⟩] ∧
    boundarySlot [some ⟨10, 0, 100⟩, none, some ⟨0, 0, 55⟩] 1 100 160 = 0 ∧
    (⟨10 / 9, 0, 60⟩ : Sample) ≠ ⟨10, 0, 100⟩ := by
  decide

/-- C5 (amended): filling an empty slot with a sample that is out of the
window and more than the 50 ms interpolation threshold older than every
sample the estimator sees leaves the result unchanged (stated for buffers
with pairwise-distinct timestamps, away from the anchor slots).  Mere
out-of-window age is not enough: a sample just past the window boundary is
read by the trailing-edge interpolation and changes the result (see the
counterexample). -/
theorem claim_C5_amended (b : Buffer) (i k : ℕ) (msec now : ℚ) (s : Sample)
    (hk : b[k]? = some none)
    (hka : k ≠ anchorIndex b i)
    (hkp : k ≠ anchorIndex b i - 1)
    (hdist : (sortedSamples b i now).Pairwise (fun p q => p.2.time ≠ q.2.time))
    (hold : ∀ p ∈ sortedSamples b i now, s.time + 50 < p.2.time)
    (hout : s.time < ((sortedSamples b i now).headD (0, default)).2.time - msec) :
    computeVelocity (b.set k (some s)) i msec now = computeVelocity b i msec now := by
  have hlen : k < b.length := by
    rcases List.getElem?_eq_some.mp hk with ⟨hlt, -⟩
    exact hlt
  have hai : anchorIndex (b.set k (some s)) i = anchorIndex b i := by
    unfold anchorIndex
    rw [List.length_set]
  have hprev : (b.set k (some s)).getD (anchorIndex b i - 1) none =
      b.getD (anchorIndex b i - 1) none := by
    rw [List.getD_eq_getElem?_getD, List.getD_eq_getElem?_getD,
      List.getElem?_set_ne hkp]
  have hbuf : anchoredBuffer (b.set k (some s)) i now =
      (anchoredBuffer b i now).set k (some s) := by
    unfold anchoredBuffer
    rw [hai, hprev]
    exact writeAt_set_comm b (anchorIndex b i) k _ (some s) hka hlen
  have hbk : (anchoredBuffer b i now)[k]? = some none := by
    unfold anchoredBuffer
    rw [getElem?_writeAt_lt b _ k _ hka hlen]
    exact hk
  obtain ⟨L1, L2, hL, hL2⟩ := compacted_set_mid (anchoredBuffer b i now) k s hbk
  have hS2 : sortedSamples (b.set k (some s)) i now =
      sortedSamples b i now ++ [(k, s)] := by
    unfold sortedSamples
    rw [hbuf, hL2]
    have hdist2 : (sortDesc (L1 ++ L2)).Pairwise (fun p q => p.2.time ≠ q.2.time) := by
      rw [← hL]
      exact hdist
    have hold2 : ∀ p ∈ L1 ++ L2, (k, s).2.time < p.2.time := by
      intro p hp
      have hp2 : p ∈ sortedSamples b i now := by
        apply (sortedSamples_perm b i now).symm.subset
        rw [hL]
        exact hp
      have := hold p hp2
      show s.time < p.2.time
      linarith
    rw [sortDesc_insert_oldest L1 L2 (k, s) hdist2 hold2, ← hL]
  rw [computeVelocity_eq_fromSorted, computeVelocity_eq_fromSorted, hS2]
  exact velocityFromSorted_append_old (sortedSamples b i now) (k, s) msec
    (sortedSamples_ne_nil b i now) hout hold

/-- Witness for C5: adding `(7, 8, 20)` — 180 ms older than every sample and
130 ms outside the window — into empty slot 2 leaves the estimate
unchanged. -/
theorem claim_C5_witness :
    computeVelocity (([some ⟨1, 1, 200⟩, none, none] : Buffer).set 2
        (some ⟨7, 8, 20⟩)) 1 150 300 =
      computeVelocity [some ⟨1, 1, 200⟩, none, none] 1 150 300 :=
  claim_C5_amended [some ⟨1, 1, 200⟩, none, none] 1 2 150 300 ⟨7, 8, 20⟩
    (by decide) (by decide) (by decide) (by decide) (by decide) (by decide)

/-- Counterexample to C5 as stated: sample `(0, 0, 55)` is strictly older
than `mostRecent.time - windowMs = 60`, yet adding it to the empty slot 2
changes the result from `{0, 0}` to `{800/9, 0}`, because it becomes the
trailing sample of the boundary interpolation (gap 45 ms < 50 ms). -/
theorem claim_C5_counterexample :
    computeVelocity [some ⟨10, 0, 100⟩, none, none] 1 100 160 = ⟨0, 0⟩ ∧
    computeVelocity (([some ⟨10, 0, 100⟩, none, none] : Buffer).set 2
        (some ⟨0, 0, 55⟩)) 1 100 160 = ⟨800 / 9, 0⟩ ∧
    ([some ⟨10, 0, 100⟩, none, none] : Buffer).getD 2 none = none ∧
    (55 : ℚ) <
      (mostRecentOf (sortedSamples [some ⟨10, 0, 100⟩, none, none] 1 160) 100).time
        - 100 := by
  decide
